import Mathlib

/-
Verification development for the G-code post-processor (gcode-post.js, v1.4).

The source program is shallowly embedded below.  JS numbers are modelled as
exact rationals: every numeric value exercised here is a small decimal
literal, which IEEE doubles and the rationals agree on.  JS strings are
modelled as Lean strings, with the handful of regular expressions of the
source translated to explicit character-list matchers.
-/

namespace GcodePost

/-- Whitespace test modelling the JS regex class backslash-s and the
trimming of String.prototype.trim; all inputs of interest are ASCII. -/
def wsChar (c : Char) : Bool := c.isWhitespace

/-- Word-character test for the JS word-boundary assertion: A-Z, a-z, 0-9
and the underscore. -/
def wordChar (c : Char) : Bool := c.isAlphanum || c == '_'

/-- Digit test for the JS digit class 0-9. -/
def digitChar (c : Char) : Bool := c.isDigit

def jsTrimList (cs : List Char) : List Char :=
  ((cs.dropWhile wsChar).reverse.dropWhile wsChar).reverse

/-- Model of String.prototype.trim. -/
def jsTrim (s : String) : String := String.mk (jsTrimList s.toList)

def splitWsAux : List Char → List Char → List String
  | [], acc => if acc.isEmpty then [] else [String.mk acc.reverse]
  | c :: rest, acc =>
    if wsChar c then
      if acc.isEmpty then splitWsAux rest []
      else String.mk acc.reverse :: splitWsAux rest []
    else splitWsAux rest (c :: acc)

/-- Model of raw.trim().split on whitespace runs, the tokenizer used both by
CommandProcessor.processLine and by the ignorable-line test.  On an
all-whitespace line JS yields one empty token; that token matches neither an
axis letter nor the ignorable pattern, and the ignorable test filters it
away, so the model uniformly yields no tokens for it. -/
def jsTokens (raw : String) : List String := splitWsAux (jsTrimList raw.toList) []

def digitsToNat (ds : List Char) : ℕ := ds.foldl (fun a c => 10 * a + (c.toNat - 48)) 0

/-
Arithmetic on ℚ written through mkRat.  The ambient rational operations of
the mathematical library are flagged irreducible, which blocks kernel
evaluation of concrete runs; the program's numeric claims, however, all need
concrete evaluation.  The four operations below compute the usual field
operations of ℚ directly from numerator and denominator.
-/

def qadd (a b : ℚ) : ℚ := mkRat (a.num * b.den + b.num * a.den) (a.den * b.den)

def qmul (a b : ℚ) : ℚ := mkRat (a.num * b.num) (a.den * b.den)

def qneg (a : ℚ) : ℚ := mkRat (-a.num) a.den

/-- Division a / b on ℚ; division by zero yields zero, a case no caller
reaches. -/
def qdiv (a b : ℚ) : ℚ :=
  if b.num < 0 then mkRat (-(a.num * b.den)) (a.den * b.num.natAbs)
  else mkRat (a.num * b.den) (a.den * b.num.natAbs)

def qmin (a b : ℚ) : ℚ := if a ≤ b then a else b

def qmax (a b : ℚ) : ℚ := if a ≤ b then b else a

def pow10 : ℕ → ℚ
  | 0 => 1
  | n + 1 => qmul 10 (pow10 n)

/-- Decimal exponent suffix accepted by parseFloat after the mantissa; a
malformed exponent is ignored, leaving the mantissa value. -/
def expPart (cs : List Char) : ℤ :=
  match cs with
  | c :: rest =>
    if c == 'e' || c == 'E' then
      match rest with
      | '+' :: r2 => let d := r2.takeWhile digitChar
                     if d.isEmpty then 0 else (digitsToNat d : ℤ)
      | '-' :: r2 => let d := r2.takeWhile digitChar
                     if d.isEmpty then 0 else -(digitsToNat d : ℤ)
      | r2 => let d := r2.takeWhile digitChar
              if d.isEmpty then 0 else (digitsToNat d : ℤ)
    else 0
  | [] => 0

def applyExp (q : ℚ) (e : ℤ) : ℚ :=
  if 0 ≤ e then qmul q (pow10 e.toNat) else qdiv q (pow10 (-e).toNat)

/-- Model of JS parseFloat: skip leading whitespace, an optional sign, then
digits with an optional fractional part (at least one digit overall), then an
optional decimal exponent; anything else, including an empty remainder,
yields none where JS yields NaN.  The Infinity literal and double rounding
fall outside this exact rational model; every value the program's claims
exercise is a short finite decimal, which parses exactly. -/
def jsParseFloat (s : String) : Option ℚ :=
  let cs := s.toList.dropWhile wsChar
  let sgncs : Bool × List Char :=
    match cs with
    | '-' :: r => (true, r)
    | '+' :: r => (false, r)
    | r => (false, r)
  let intD := sgncs.2.takeWhile digitChar
  let r1 := sgncs.2.dropWhile digitChar
  let fr2 : List Char × List Char :=
    match r1 with
    | '.' :: rf => (rf.takeWhile digitChar, rf.dropWhile digitChar)
    | _ => ([], r1)
  if intD.isEmpty && fr2.1.isEmpty then none
  else
    let mant : ℚ :=
      qadd (digitsToNat intD : ℚ) (qdiv (digitsToNat fr2.1 : ℚ) (pow10 fr2.1.length))
    let v := applyExp mant (expPart fr2.2)
    some (if sgncs.1 then qneg v else v)

structure Coord where
  x : ℚ
  y : ℚ
  z : ℚ
deriving DecidableEq, Repr

inductive Axis
  | X
  | Y
  | Z
deriving DecidableEq, Repr

def Axis.get : Axis → Coord → ℚ
  | .X, c => c.x
  | .Y, c => c.y
  | .Z, c => c.z

/-- Decodes one token the way CommandProcessor.processLine does: a token
whose first character is X, Y or Z in either case names that axis, and its
remainder goes to parseFloat; a NaN result means the token is ignored. -/
def tokenAxisVal (t : String) : Option (Axis × ℚ) :=
  match t.toList with
  | [] => none
  | ch :: rest =>
    let ax : Option Axis :=
      if ch == 'X' || ch == 'x' then some .X
      else if ch == 'Y' || ch == 'y' then some .Y
      else if ch == 'Z' || ch == 'z' then some .Z
      else none
    match ax with
    | none => none
    | some a =>
      match jsParseFloat (String.mk rest) with
      | none => none
      | some v => some (a, v)

/-- One step of the axis-token loop: a successfully decoded token overwrites
its axis absolutely, anything else leaves the position unchanged. -/
def applyToken (c : Coord) (t : String) : Coord :=
  match tokenAxisVal t with
  | some (.X, v) => { c with x := v }
  | some (.Y, v) => { c with y := v }
  | some (.Z, v) => { c with z := v }
  | none => c

def boundaryAfter : List Char → Bool
  | [] => true
  | c :: _ => !wordChar c

/-- Anchored test for G0 or G1 followed by a word boundary, with optional
leading whitespace and case-insensitivity switches matching the three
variants of this pattern in the source. -/
def matchG01 (allowWs : Bool) (ci : Bool) (raw : String) : Bool :=
  let cs := if allowWs then raw.toList.dropWhile wsChar else raw.toList
  match cs with
  | g :: d :: rest =>
    (g == 'G' || (ci && g == 'g')) && (d == '0' || d == '1') && boundaryAfter rest
  | _ => false

structure TrackState where
  x : ℚ
  y : ℚ
  z : ℚ
  currentCommand : String
  minC : Coord
  maxC : Coord
deriving DecidableEq, Repr

def TrackState.coords (st : TrackState) : Coord := ⟨st.x, st.y, st.z⟩

/-- Initial CommandProcessor state: x = 0, y = 0, z = 5 (a G0 Z5 line is hard
coded at the beginning of each file), with min and max seeded from it. -/
def initTracker : TrackState :=
  { x := 0, y := 0, z := 5, currentCommand := "", minC := ⟨0, 0, 5⟩, maxC := ⟨0, 0, 5⟩ }

structure StepResult where
  state : TrackState
  startC : Coord
  endC : Coord
deriving DecidableEq, Repr

/-- CommandProcessor.processLine: record the start position, update the modal
command mnemonic on a G0 or G1 line, fold every axis token of the line into
the position absolutely, update the running min and max, and return the start
and end coordinates. -/
def processLine (st : TrackState) (raw : String) : StepResult :=
  let start := st.coords
  let cmd := if matchG01 false false raw then String.mk (raw.toList.take 2)
             else st.currentCommand
  let c := (jsTokens raw).foldl applyToken start
  let mn : Coord := ⟨qmin st.minC.x c.x, qmin st.minC.y c.y, qmin st.minC.z c.z⟩
  let mx : Coord := ⟨qmax st.maxC.x c.x, qmax st.maxC.y c.y, qmax st.maxC.z c.z⟩
  { state := { x := c.x, y := c.y, z := c.z, currentCommand := cmd, minC := mn, maxC := mx }
    startC := start
    endC := c }

def startsWithCIChars : List Char → List Char → Bool
  | [], _ => true
  | _ :: _, [] => false
  | p :: ps, c :: cs2 => (c.toUpper == p) && startsWithCIChars ps cs2

/-- One token of the ignorable-line pattern: G90, G94, G17, G21 or G54 as a
case-insensitive prefix, or a first character M, T or S in either case. -/
def ignoredToken (t : String) : Bool :=
  let cs := t.toList
  startsWithCIChars ['G', '9', '0'] cs || startsWithCIChars ['G', '9', '4'] cs ||
  startsWithCIChars ['G', '1', '7'] cs || startsWithCIChars ['G', '2', '1'] cs ||
  startsWithCIChars ['G', '5', '4'] cs ||
  (match cs with
   | c :: _ => c.toUpper == 'M' || c.toUpper == 'T' || c.toUpper == 'S'
   | [] => false)

/-- Line._calcIgnored: nonempty token list, every token in the fixed
modal-preamble set. -/
def calcIgnored (raw : String) : Bool :=
  let toks := jsTokens raw
  !toks.isEmpty && toks.all ignoredToken

def containsChar (a b : Char) (raw : String) : Bool :=
  raw.toList.any (fun c => c == a || c == b)

structure Line where
  raw : String
  ignored : Bool
  isFirst : Bool
  isComment : Bool
  startCoord : Coord
  endCoord : Coord
  isFastMove : Bool
  fastMoveReason : String
  hasX : Bool
  hasY : Bool
  hasZ : Bool
  hasXY : Bool
  hasMotion : Bool
  tags : List String
deriving DecidableEq, Repr

instance : Inhabited Line :=
  ⟨{ raw := "", ignored := false, isFirst := false, isComment := false,
     startCoord := ⟨0, 0, 0⟩, endCoord := ⟨0, 0, 0⟩, isFastMove := false,
     fastMoveReason := "", hasX := false, hasY := false, hasZ := false,
     hasXY := false, hasMotion := false, tags := [] }⟩

/-- The Line constructor: static flags derived from the raw text, default
zero coordinates, no fast-move mark, an empty tag set. -/
def mkLine (raw : String) : Line :=
  let hx := containsChar 'X' 'x' raw
  let hy := containsChar 'Y' 'y' raw
  let hz := containsChar 'Z' 'z' raw
  { raw := raw
    ignored := calcIgnored raw
    isFirst := false
    isComment := (match raw.toList with | '(' :: _ => true | _ => false)
    startCoord := ⟨0, 0, 0⟩
    endCoord := ⟨0, 0, 0⟩
    isFastMove := false
    fastMoveReason := ""
    hasX := hx
    hasY := hy
    hasZ := hz
    hasXY := hx || hy
    hasMotion := matchG01 false true raw || hx || hy || hz
    tags := [] }

/-- Line.prototype.clone: a fresh Line built from the new raw text, carrying
over only the coordinates of the original. -/
def Line.clone (ln : Line) (raw : String) : Line :=
  { mkLine raw with startCoord := ln.startCoord, endCoord := ln.endCoord }

/-- Line.prototype.matchTags: every required tag is present in the tag set. -/
def Line.matchTags (ln : Line) (required : List String) : Bool :=
  required.all (fun t => ln.tags.contains t)

def intRepr (n : ℤ) : String :=
  match n with
  | .ofNat m => Nat.repr m
  | .negSucc m => "-" ++ Nat.repr (m + 1)

def ratRepr (q : ℚ) : String :=
  if q.den == 1 then intRepr q.num else intRepr q.num ++ "/" ++ Nat.repr q.den

/-- The diagnostic reason recorded for fast-move rule 1.  The JS template
interpolates the numbers in decimal notation; the model prints the same
values as rationals, which affects only the text of the diagnostic. -/
def fastReason (anyXY : Bool) (s e : Coord) : String :=
  "anyXY\x7b" ++ toString anyXY ++ "\x7d && start.z\x7b" ++ ratRepr s.z ++
  "\x7d >= 0 && end.z\x7b" ++ ratRepr e.z ++ "\x7d >= 0"

/-- The fast-move policy applied per line in loadFiles: rule 1 marks a line
with X or Y at or above the clearance plane throughout as fast and records a
reason; rule 2 marks a strictly upward Z-only move ending at or above the
plane as fast with no reason; everything else is not fast. -/
def classifyFastMove (ln : Line) (s e : Coord) : Bool × String :=
  let anyXY := ln.hasX || ln.hasY
  if anyXY && decide (0 ≤ s.z) && decide (0 ≤ e.z) then
    (true, fastReason anyXY s e)
  else if !anyXY && ln.hasZ && decide (s.z < e.z) && decide (0 ≤ e.z) then
    (true, "")
  else (false, "")

/-- The coordinate-tracking and classification pass of loadFiles over one
non-drilling file: every line, in order, receives its start and end
coordinates from the shared CommandProcessor together with its fast-move
mark; the final tracker state carries the running min and max. -/
def runTracker (st : TrackState) : List Line → List Line × TrackState
  | [] => ([], st)
  | ln :: rest =>
    let p := processLine st ln.raw
    let fast := classifyFastMove ln p.startC p.endC
    let ln2 := { ln with
      startCoord := p.startC
      endCoord := p.endC
      isFastMove := fast.1
      fastMoveReason := fast.2 }
    let rs := runTracker p.state rest
    (ln2 :: rs.1, rs.2)

/-- Flags the first G0 or G1 line of a file (loadFiles). -/
def markFirst : List Line → List Line
  | [] => []
  | ln :: rest =>
    if matchG01 true true ln.raw then { ln with isFirst := true } :: rest
    else ln :: markFirst rest

/-- Full-line comment recognizer: leading whitespace, an opening parenthesis,
any text, a closing parenthesis, trailing whitespace; returns the text
between the outer parentheses (the greedy capture reaches the last closing
parenthesis that is followed only by whitespace). -/
def fullComment (raw : String) : Option String :=
  match raw.toList.dropWhile wsChar with
  | '(' :: rest =>
    match rest.reverse.dropWhile wsChar with
    | ')' :: mid => some (String.mk mid.reverse)
    | _ => none
  | _ => none

def toolIdOf (raw : String) : Option String :=
  match raw.toList.dropWhile wsChar with
  | c :: rest =>
    if c == 'T' || c == 't' then
      let d := rest.takeWhile digitChar
      if d.isEmpty then none else some (String.mk ('T' :: d))
    else none
  | [] => none

/-- FileObject._extractTool: the first line opening with T and digits names
the tool; otherwise the placeholder T?. -/
def extractTool (lns : List String) : String :=
  match lns.findSome? toolIdOf with
  | some t => t
  | none => "T?"

/-- Key-value capture inside a comment: the key, case-insensitively, then the
run of characters that are neither whitespace nor a closing parenthesis. -/
def keyValueAt (key : List Char) (cs : List Char) : Option String :=
  if startsWithCIChars key cs then
    let v := (cs.drop key.length).takeWhile (fun c => !wsChar c && c != ')')
    if v.isEmpty then none else some (String.mk v)
  else none

/-- Leftmost occurrence of the key at the start of the text or after a
whitespace character. -/
def scanKeyEq (key : List Char) : Bool → List Char → Option String
  | _, [] => none
  | atB, c :: rest =>
    match (if atB then keyValueAt key (c :: rest) else none) with
    | some v => some v
    | none => scanKeyEq key (wsChar c) rest

/-- FileObject._extractSetup: the first full-line comment carrying a SETUP=
value. -/
def extractSetup (lns : List String) : Option String :=
  lns.findSome? (fun raw =>
    match fullComment raw with
    | some inner => scanKeyEq ['S', 'E', 'T', 'U', 'P', '='] true inner.toList
    | none => none)

/-- FileObject._extractZO: the first full-line comment carrying a ZO= value,
given to parseFloat.  A NaN parse is conflated with absence here; the field
is metadata never consulted by the merge logic under verification. -/
def extractZO (lns : List String) : Option ℚ :=
  match lns.findSome? (fun raw =>
      (fullComment raw).bind (fun inner => scanKeyEq ['Z', 'O', '='] true inner.toList)) with
  | some v => jsParseFloat v
  | none => none

def opDigitsAt (cs : List Char) : Option (List Char) :=
  match cs with
  | o :: p :: rest =>
    if o.toUpper == 'O' && p.toUpper == 'P' then
      let d := (rest.dropWhile wsChar).takeWhile digitChar
      if d.isEmpty then none else some d
    else none
  | _ => none

def scanOp : Bool → List Char → Option (List Char)
  | _, [] => none
  | atB, c :: rest =>
    match (if atB then opDigitsAt (c :: rest) else none) with
    | some d => some d
    | none => scanOp (!wordChar c) rest

/-- FileObject._extractOperation: the digits after the word op in the file
path, if any. -/
def extractOperation (path : String) : Option ℕ :=
  (scanOp true path.toList).map digitsToNat

/-- FileObject._extractIsDrilling: some full-line comment whose text starts
with Drill, case-insensitively. -/
def extractIsDrilling (lns : List String) : Bool :=
  lns.any (fun raw =>
    match fullComment raw with
    | some inner => startsWithCIChars ['D', 'R', 'I', 'L', 'L'] inner.toList
    | none => false)

/-- FileObject._extractName: the first line with one leading
whitespace-parenthesis prefix and one trailing parenthesis-whitespace suffix
removed, trimmed. -/
def extractName (lns : List String) : String :=
  let firstLine := match lns with
    | r :: _ => r
    | [] => ""
  let cs := firstLine.toList
  let cs1 := match cs.dropWhile wsChar with
    | '(' :: rest => rest
    | _ => cs
  let cs2 := match cs1.reverse.dropWhile wsChar with
    | ')' :: mid => mid.reverse
    | _ => cs1
  String.mk (jsTrimList cs2)

structure FileObject where
  path : String
  lines : List Line
  name : String
  tool : String
  setup : Option String
  zo : Option ℚ
  operation : ℕ
  isDrilling : Bool
  allowFastMoves : Bool
  commandProcessor : Option TrackState
deriving DecidableEq, Repr

/-- The per-file work of loadFiles: build the Line records, flag the first
motion line, extract the FileObject metadata, and, for a non-drilling file,
run the CommandProcessor over every line in order, marking fast moves.  The
commandProcessor field keeps the tracker's final state, as the source keeps
the processor object on the FileObject. -/
def loadFile (path : String) (raws : List String) : FileObject :=
  let base := markFirst (raws.map mkLine)
  let drilling := extractIsDrilling raws
  let allow := !drilling
  let lp : List Line × Option TrackState :=
    if allow then
      let r := runTracker initTracker base
      (r.1, some r.2)
    else (base, none)
  { path := path
    lines := lp.1
    name := extractName raws
    tool := extractTool raws
    setup := extractSetup raws
    zo := extractZO raws
    operation := (extractOperation path).getD 0
    isDrilling := drilling
    allowFastMoves := allow
    commandProcessor := lp.2 }

/-- The axis tag: the concatenation of the present axis letters in X, Y, Z
order, possibly the empty string. -/
def axesTag (ln : Line) : String :=
  (if ln.hasX then "X" else "") ++ (if ln.hasY then "Y" else "") ++
  (if ln.hasZ then "Z" else "")

/-- parseTags: adds FAST when the line is a fast move, the axis-letter tag,
and UNENGAGED when both endpoint heights are at or above the clearance
plane.  The JS tag container is an object whose keys enumerate in insertion
order; the model appends the keys in that order (every line entering this
function carries an empty tag set, so no key repeats). -/
def parseTags (ln : Line) : Line :=
  { ln with tags := ln.tags ++
      (if ln.isFastMove then ["FAST"] else []) ++ [axesTag ln] ++
      (if decide (0 ≤ ln.startCoord.z) && decide (0 ≤ ln.endCoord.z) then ["UNENGAGED"]
       else []) }

/-- The synthetic modal-reset line of addTagsToLines: a clone of the
fast-to-not-fast transition line with raw text G1, tagged RESET-FR. -/
def resetLineOf (ln : Line) : Line :=
  let r := ln.clone "G1"
  { r with tags := r.tags ++ ["RESET-FR"] }

/-- The per-file body of addTagsToLines: ignorable, comment and blank lines
are dropped without touching the last-was-fast flag; every other line is
tagged; in a file allowing fast moves, a not-fast line directly after a fast
line is preceded by one synthetic RESET-FR line. -/
def addTagsFilePass (allowFast : Bool) (lastWasFast : Bool) : List Line → List Line
  | [] => []
  | ln :: rest =>
    if !ln.ignored && !ln.isComment then
      if (jsTrim ln.raw).isEmpty then addTagsFilePass allowFast lastWasFast rest
      else
        let tl := parseTags ln
        if allowFast then
          if tl.isFastMove then tl :: addTagsFilePass allowFast true rest
          else if lastWasFast then
            resetLineOf tl :: tl :: addTagsFilePass allowFast false rest
          else tl :: addTagsFilePass allowFast false rest
        else tl :: addTagsFilePass allowFast lastWasFast rest
    else addTagsFilePass allowFast lastWasFast rest

/-- addTagsToLines over one merge group.  The source accumulates every
member's retained lines into one output array declared outside the member
loop and assigns that same array object to each member's lines field; once
the loop finishes every member of the group therefore holds the full
concatenation of all members' processed lines.  The last-was-fast flag
restarts at false for each member. -/
def addTagsToLines (group : List FileObject) : List FileObject :=
  let out := group.foldl (fun acc f => acc ++ addTagsFilePass f.allowFastMoves false f.lines) []
  group.map fun f => { f with lines := out }

/-- The lines the tagging pass retains: not ignorable, not a comment, not
blank. -/
def retainedOf (lns : List Line) : List Line :=
  lns.filter (fun ln => !ln.ignored && !ln.isComment && !(jsTrim ln.raw).isEmpty)

/-- Reset insertion in the words of the specification: scanning the
retained, tagged sequence pairwise, exactly one synthetic RESET-FR clone sits
immediately before a not-fast line that directly follows a fast line, and
nothing is inserted between two lines of equal classification or on a
not-fast-to-fast transition. -/
def specResets : List Line → List Line
  | a :: b :: t =>
    a :: (if a.isFastMove && !b.isFastMove then [resetLineOf b] else []) ++ specResets (b :: t)
  | l => l

/-- The tool-definition comment matcher of buildToolDict: leading whitespace,
an opening parenthesis, optional whitespace, T and digits, whitespace, D=,
then a run of digits and periods; yields the tool key and the parseFloat of
the captured diameter text (none models a NaN diameter, which the source
would store as NaN). -/
def toolDefMatch (raw : String) : Option (String × Option ℚ) :=
  match raw.toList.dropWhile wsChar with
  | '(' :: r1 =>
    match r1.dropWhile wsChar with
    | t :: r2 =>
      if t == 'T' || t == 't' then
        let d := r2.takeWhile digitChar
        let r3 := r2.dropWhile digitChar
        if d.isEmpty then none
        else if (r3.takeWhile wsChar).isEmpty then none
        else
          match r3.dropWhile wsChar with
          | c1 :: c2 :: r5 =>
            if (c1 == 'D' || c1 == 'd') && c2 == '=' then
              let dia := r5.takeWhile (fun c => digitChar c || c == '.')
              if dia.isEmpty then none
              else some (String.mk ('T' :: d), jsParseFloat (String.mk dia))
            else none
          | _ => none
      else none
    | [] => none
  | _ => none

structure ToolEntry where
  diameter : Option ℚ
  definitionFilename : String
deriving DecidableEq, Repr

/-- The first tool-definition line of one file, matching the loop of
buildToolDict that breaks at the first hit. -/
def fileFirstToolDef (lns : List String) : Option (String × Option ℚ) :=
  lns.findSome? toolDefMatch

/-- One file's step of buildToolDict: a file with no definition line leaves
the accumulator alone; otherwise the file joins the definition files, and
its key joins the dictionary only when not already present. -/
def tdStep (acc : List (String × ToolEntry) × List String) (f : String × List String) :
    List (String × ToolEntry) × List String :=
  match fileFirstToolDef f.2 with
  | none => acc
  | some kd =>
    (if (acc.1.lookup kd.1).isSome then acc.1
     else acc.1 ++ [(kd.1, ⟨kd.2, f.1⟩)],
     acc.2 ++ [f.1])

/-- buildToolDict over the enumerated files, each a path with its lines: per
file only the first matching line counts; the first file defining a key
wins, later duplicates being ignored; every file contributing a definition
is recorded as a definition file. -/
def buildToolDict (fileset : List (String × List String)) :
    List (String × ToolEntry) × List String :=
  fileset.foldl tdStep ([], [])

/-- loadFiles skips every definition file; the remaining enumerated paths
form the mergeable set. -/
def mergeablePaths (fileset : List (String × List String)) : List String :=
  (fileset.map Prod.fst).filter (fun p => !(buildToolDict fileset).2.contains p)

/-- Stable insertion of one file into an already sorted list: the file goes
before the first member whose operation index is at or above its own; equal
indices from later enumeration positions therefore stay behind it. -/
def insertByOperation (a : FileObject) : List FileObject → List FileObject
  | [] => [a]
  | b :: t => if a.operation ≤ b.operation then a :: b :: t else b :: insertByOperation a t

/-- sortByOperation: the stable ascending numeric sort on the operation
index, realized by stable insertion. -/
def sortByOperation : List FileObject → List FileObject
  | [] => []
  | a :: t => insertByOperation a (sortByOperation t)

/-- The grouping key setupName-or-unknown, two bars, tool id.  The source
falls back to unknown on a falsy setup; the extraction never yields an empty
string, so option emptiness models falsiness exactly. -/
def groupKeyOf (f : FileObject) : String :=
  (match f.setup with | some s => s | none => "unknown") ++ "||" ++ f.tool

def insertGroup (m : List (String × List FileObject)) (k : String) (f : FileObject) :
    List (String × List FileObject) :=
  match m with
  | [] => [(k, [f])]
  | (k2, l) :: rest =>
    if k2 == k then (k2, l ++ [f]) :: rest else (k2, l) :: insertGroup rest k f

/-- groupBySetupAndTool: an insertion-ordered map from the group key to the
member files in arrival order. -/
def groupBySetupAndTool (fs : List FileObject) : List (String × List FileObject) :=
  fs.foldl (fun m f => insertGroup m (groupKeyOf f) f) []

/-- The members sharing one group key, in list order. -/
def groupOf (fs : List FileObject) (g : String) : List FileObject :=
  fs.filter (fun f => groupKeyOf f == g)

/-- Backtracking attempt of the optional period-digits group of the feed
token pattern, ending on a word boundary. -/
def fracTry (cs : List Char) : Option (List Char) :=
  match cs with
  | '.' :: r =>
    let e := r.takeWhile digitChar
    let r2 := r.dropWhile digitChar
    if e.isEmpty then none else if boundaryAfter r2 then some r2 else none
  | _ => none

/-- Match of the feed-token pattern at the head of the text: a word boundary
(prevWord carries the word status of the preceding character), F in either
case, digits, an optional period-digits group, a closing word boundary;
yields the text after the match.  The fractional group is tried greedily
first and dropped when its boundary fails, as the JS engine backtracks. -/
def matchFR (prevWord : Bool) (l : List Char) : Option (List Char) :=
  if prevWord then none
  else
    match l with
    | [] => none
    | c :: rest =>
      if c == 'F' || c == 'f' then
        let d := rest.takeWhile digitChar
        let r1 := rest.dropWhile digitChar
        if d.isEmpty then none
        else
          match fracTry r1 with
          | some r2 => some r2
          | none => if boundaryAfter r1 then some r1 else none
      else none

/-- One global-replace pass over the text, replacing each leftmost feed-token
match by R and restarting after it.  The fuel argument only pays for the
recursion; replFR supplies the text length, which the pass never exhausts
since every step consumes at least one character. -/
def replFRAuxF (R : List Char) : ℕ → Bool → List Char → List Char
  | 0, _, l => l
  | _ + 1, _, [] => []
  | fuel + 1, prev, c :: s =>
    match matchFR prev (c :: s) with
    | some rest => R ++ replFRAuxF R fuel true rest
    | none => c :: replFRAuxF R fuel (wordChar c) s

def replFR (R : List Char) (prev : Bool) (l : List Char) : List Char :=
  replFRAuxF R l.length prev l

/-- processFeedRate: with no configured override the line is unchanged;
otherwise every feed token, F then a number, is replaced by F followed by
the override's rendered decimal text. -/
def processFeedRate (fr : Option String) (line : String) : String :=
  match fr with
  | none => line
  | some v => String.mk (replFR ('F' :: v.toList) false line.toList)

def spacesN (n : ℕ) : String := String.mk (List.replicate n ' ')

def padStartN (n : ℕ) (s : String) : String :=
  String.mk (List.replicate (n - s.length) ' ') ++ s

def padEndN (s : String) (n : ℕ) : String :=
  s ++ String.mk (List.replicate (n - s.length) ' ')

/-- Model of Number.prototype.toFixed with three fractional digits on finite
values: rounding half away from zero, a leading minus for negative input. -/
def toFixed3 (q : ℚ) : String :=
  let neg := decide (q < 0)
  let a := if neg then qneg q else q
  let scaled := qadd (qmul a 1000) (mkRat 1 2)
  let n := scaled.num.toNat / scaled.den
  let fp := Nat.repr (n % 1000)
  let fp3 := String.mk (List.replicate (3 - fp.length) '0') ++ fp
  (if neg then "-" else "") ++ Nat.repr (n / 1000) ++ "." ++ fp3

def fmt8 (q : ℚ) : String := padStartN 8 (toFixed3 q)

def joinSpace : List String → String
  | [] => ""
  | [s] => s
  | s :: rest => s ++ " " ++ joinSpace rest

/-- The endpoint-coordinates text of the trailing comment: both coordinate
triples at three decimals in eight columns, tab separated. -/
def coordPair (s e : Coord) : String :=
  fmt8 s.x ++ " " ++ fmt8 s.y ++ " " ++ fmt8 s.z ++ "\t" ++
  fmt8 e.x ++ " " ++ fmt8 e.y ++ " " ++ fmt8 e.z

/-- Anchored match of leading whitespace, G, the given digit and a word
boundary, for the two leading-mnemonic patterns of buildContentLines;
yields the text after the matched mnemonic. -/
def matchLeadingG (digit : Char) (cs : List Char) : Option (List Char) :=
  match cs.dropWhile wsChar with
  | g :: d :: rest =>
    if (g == 'G' || g == 'g') && d == digit && boundaryAfter rest then some rest else none
  | _ => none

/-- The rapid-mnemonic substitution for fast lines: a leading G1 is replaced
by G0 together with the whitespace before it; if the result still does not
open with G0, the leading whitespace run is replaced by G0 and a space. -/
def fastSubstitute (raw : String) : String :=
  let cs := raw.toList
  let r1 := match matchLeadingG '1' cs with
    | some rest => 'G' :: '0' :: rest
    | none => cs
  if (matchLeadingG '0' r1).isSome then String.mk r1
  else String.mk ('G' :: '0' :: ' ' :: r1.dropWhile wsChar)

/-- One emitted content line of buildContentLines.  In a member that allows
fast moves the line is padded to fifty columns and carries the trailing
comment with both endpoints and the tag list, fast lines after the rapid
substitution.  In other members the source passes padEnd the concatenation
of the number fifty with the comment text as its width argument; that string
converts to NaN, is truncated to a target length of zero, and padEnd returns
the text unchanged, so the line is emitted bare. -/
def emitContentLine (fr : Option String) (allowFast : Bool) (ln : Line) : String :=
  let coords := coordPair ln.startCoord ln.endCoord
  let raw := processFeedRate fr ln.raw
  let tagsTxt := joinSpace ln.tags
  if allowFast then
    if ln.isFastMove then
      padEndN (fastSubstitute raw) 50 ++ "; " ++ coords ++ " # " ++ tagsTxt
    else
      padEndN raw 50 ++ "; " ++ coords ++ " # " ++ tagsTxt
  else raw

/-- The retained-content section of one member block: blanks print as empty
lines before the tag filter is consulted; a line failing the active filter is
dropped; everything else is emitted. -/
def contentSection (fr : Option String) (filtered : Bool) (ftags : List String)
    (allowFast : Bool) : List Line → List String
  | [] => []
  | ln :: rest =>
    if !ln.ignored && !ln.isComment then
      if (jsTrim ln.raw).isEmpty then
        "" :: contentSection fr filtered ftags allowFast rest
      else if filtered && !(ln.matchTags ftags) then
        contentSection fr filtered ftags allowFast rest
      else
        emitContentLine fr allowFast ln :: contentSection fr filtered ftags allowFast rest
    else contentSection fr filtered ftags allowFast rest

/-- aggregateStats: componentwise min and max over the members carrying a
tracker, seeded from plus and minus infinity; none models the untouched
infinities of a group with no tracked member. -/
def aggregateStats (group : List FileObject) : Option (Coord × Coord) :=
  group.foldl
    (fun acc f =>
      match f.commandProcessor with
      | none => acc
      | some st =>
        match acc with
        | none => some (st.minC, st.maxC)
        | some mm =>
          some (⟨qmin mm.1.x st.minC.x, qmin mm.1.y st.minC.y, qmin mm.1.z st.minC.z⟩,
                ⟨qmax mm.2.x st.maxC.x, qmax mm.2.y st.maxC.y, qmax mm.2.z st.maxC.z⟩))
    none

def statsLine (label : String) (c : Coord) : String :=
  "(" ++ spacesN 46 ++ label ++ spacesN 26 ++
  fmt8 c.x ++ " " ++ fmt8 c.y ++ " " ++ fmt8 c.z ++ ")"

def aggLine (label : String) (inf : String) (c : Option Coord) : String :=
  match c with
  | some cc => statsLine label cc
  | none => "(" ++ spacesN 46 ++ label ++ spacesN 26 ++ inf ++ " " ++ inf ++ " " ++ inf ++ ")"

def fileStatsBlock (cnt : ℕ) (st : TrackState) : List String :=
  ["; FILE " ++ Nat.repr cnt ++ " STATS", statsLine "MIN: " st.minC,
   statsLine "MAX: " st.maxC, ""]

/-- The comment section of one member block: every comment line verbatim,
then one newline element when any was printed. -/
def memberCommentLines (f : FileObject) : List String :=
  let cs := (f.lines.filter (·.isComment)).map (·.raw)
  if cs.isEmpty then cs else cs ++ ["\n"]

/-- buildContentLines: the preamble with the effective feed rate, the
aggregate statistics block, then per member a clearance line, the comment
section, the per-file statistics block when a tracker exists, the retained
content section and ten blank lines; finally the clearance and home lines.
Also returns the recorded one-based content-start index per member path. -/
def buildContentLines (fr : Option String) (filtered : Bool) (ftags : List String)
    (group : List FileObject) : List String × List (String × ℕ) :=
  let header : List String :=
    ["", "G90 G94 G17 G21 G54 F" ++ (match fr with | some v => v | none => "500"), ""]
  let agg := aggregateStats group
  let aggBlock : List String :=
    ["; AGGREGATE STATS - ALL FILES",
     aggLine "MIN: " "Infinity" (agg.map Prod.fst),
     aggLine "MAX: " "-Infinity" (agg.map Prod.snd), ""]
  let res := group.foldl
    (fun (acc : List String × List (String × ℕ) × ℕ) f =>
      let start := acc.1.length + 1
      let cl2 := acc.1 ++ ["G0 Z5\n\n"] ++ memberCommentLines f
      let withStats : List String × ℕ :=
        match f.commandProcessor with
        | some st => (cl2 ++ fileStatsBlock (acc.2.2 + 1) st, acc.2.2 + 1)
        | none => (cl2, acc.2.2)
      (withStats.1 ++ contentSection fr filtered ftags f.allowFastMoves f.lines ++
         List.replicate 10 "",
       acc.2.1 ++ [(f.path, start)], withStats.2))
    (header ++ aggBlock, [], 0)
  (res.1 ++ ["G0 Z5", "G0 X0 Y0"], res.2.1)

/-- The per-group body of mergeBySetupAndTool under verification: tag and
reset insertion, then content assembly. -/
def mergeGroupContent (fr : Option String) (filtered : Bool) (ftags : List String)
    (group : List FileObject) : List String :=
  (buildContentLines fr filtered ftags (addTagsToLines group)).1

def startsWithChars : List Char → List Char → Bool
  | [], _ => true
  | _ :: _, [] => false
  | p :: ps, c :: cs2 => p == c && startsWithChars ps cs2

def occursInChars (needle : List Char) : List Char → Bool
  | [] => needle.isEmpty
  | c :: rest => startsWithChars needle (c :: rest) || occursInChars needle rest

/-- Substring occurrence test used to state the concrete output facts. -/
def occursIn (needle hay : String) : Bool := occursInChars needle.toList hay.toList

/-
Shared lemmas about the tracker and the loader.
-/

theorem processLine_startC (st : TrackState) (raw : String) :
    (processLine st raw).startC = st.coords := rfl

theorem processLine_endC_coords (st : TrackState) (raw : String) :
    (processLine st raw).endC = (processLine st raw).state.coords := rfl

theorem foldl_applyToken_preserve (a : Axis) :
    ∀ (toks : List String) (c : Coord),
      (∀ t ∈ toks, (tokenAxisVal t).map Prod.fst ≠ some a) →
      a.get (toks.foldl applyToken c) = a.get c := by
  intro toks
  induction toks with
  | nil => intro c _; rfl
  | cons t ts ih =>
    intro c h
    have ht := h t (by simp)
    have hrest : ∀ u ∈ ts, (tokenAxisVal u).map Prod.fst ≠ some a :=
      fun u hu => h u (by simp [hu])
    rw [List.foldl_cons, ih _ hrest]
    unfold applyToken
    rcases hv : tokenAxisVal t with _ | ⟨ax, v⟩
    · rfl
    · have hne : ax ≠ a := by
        intro he
        exact ht (by rw [hv, he]; rfl)
      cases ax <;> cases a <;> simp_all [Axis.get]

theorem runTracker_head_start (st : TrackState) (lns : List Line) :
    ∀ q ∈ ((runTracker st lns).1).head?, q.startCoord = st.coords := by
  cases lns with
  | nil => simp [runTracker]
  | cons ln rest => simp [runTracker, processLine_startC]

theorem runTracker_chain (lns : List Line) :
    ∀ st, List.Chain' (fun p q => q.startCoord = p.endCoord) ((runTracker st lns).1) := by
  induction lns with
  | nil => intro st; simp [runTracker]
  | cons ln rest ih =>
    intro st
    simp only [runTracker]
    refine List.chain'_cons'.mpr ⟨?_, ih _⟩
    intro q hq
    have h2 := runTracker_head_start (processLine st ln.raw).state rest q hq
    rw [h2]
    exact (processLine_endC_coords st ln.raw).symm

theorem loadFile_lines_not_drilling (path : String) (raws : List String)
    (h : extractIsDrilling raws = false) :
    (loadFile path raws).lines = (runTracker initTracker (markFirst (raws.map mkLine))).1 := by
  simp [loadFile, h]

/-- Claim C1: in a non-drilling file the tracked line sequence chains, each
line starting where the previous one ended; and in every tracker step an
axis with no successfully parsed token keeps its prior value, an unparsable
remainder being ignored. -/
theorem c1_chain_and_retention :
    (∀ (path : String) (raws : List String), extractIsDrilling raws = false →
      List.Chain' (fun p q => q.startCoord = p.endCoord) (loadFile path raws).lines) ∧
    (∀ (st : TrackState) (raw : String) (a : Axis),
      (∀ t ∈ jsTokens raw, (tokenAxisVal t).map Prod.fst ≠ some a) →
      a.get (processLine st raw).endC = a.get (processLine st raw).startC) := by
  constructor
  · intro path raws h
    rw [loadFile_lines_not_drilling path raws h]
    exact runTracker_chain _ _
  · intro st raw a h
    have h2 : (processLine st raw).endC = (jsTokens raw).foldl applyToken st.coords := rfl
    rw [h2, processLine_startC, foldl_applyToken_preserve a (jsTokens raw) st.coords h]

/-- Witness for claim C1 at a concrete file and a concrete unparsable X
token. -/
theorem c1_witness :
    List.Chain' (fun p q => q.startCoord = p.endCoord)
      (loadFile "w.nc" ["G0 Z5", "G1 X2 Y3"]).lines ∧
    Axis.get Axis.X (processLine initTracker "G1 Xfoo").endC =
      Axis.get Axis.X (processLine initTracker "G1 Xfoo").startC :=
  ⟨c1_chain_and_retention.1 "w.nc" ["G0 Z5", "G1 X2 Y3"] (by decide),
   c1_chain_and_retention.2 initTracker "G1 Xfoo" Axis.X (by decide)⟩

theorem fastReason_ne_empty (b : Bool) (s e : Coord) : fastReason b s e ≠ "" := by
  intro h
  have h2 := congrArg String.length h
  unfold fastReason at h2
  simp [String.length_append] at h2
  exact absurd h2.1.1.1.1.1.1 (by decide)

/-- Claim C2: the fast-move classification of every line is fast with a
recorded reason exactly when the line has X or Y and both endpoint heights
are at or above zero; otherwise fast without a reason exactly when the line
has only Z among the axes, moves strictly upward and ends at or above zero;
otherwise not fast.  On the sequence G0 Z5, G1 X10 Y10, G1 Z-2, G1 Z5 from
height five, the last three lines classify fast with a reason, not fast, and
fast without a reason. -/
theorem c2_classification :
    (∀ (raw : String) (s e : Coord),
      ((classifyFastMove (mkLine raw) s e).1 = true ↔
        ((((mkLine raw).hasX || (mkLine raw).hasY) = true ∧ 0 ≤ s.z ∧ 0 ≤ e.z) ∨
         ((mkLine raw).hasX = false ∧ (mkLine raw).hasY = false ∧
          (mkLine raw).hasZ = true ∧ s.z < e.z ∧ 0 ≤ e.z))) ∧
      ((classifyFastMove (mkLine raw) s e).2 ≠ "" ↔
        (((mkLine raw).hasX || (mkLine raw).hasY) = true ∧ 0 ≤ s.z ∧ 0 ≤ e.z))) ∧
    ((loadFile "demo.nc" ["G0 Z5", "G1 X10 Y10", "G1 Z-2", "G1 Z5"]).lines.map
        (fun l => (l.isFastMove, l.fastMoveReason.isEmpty)) =
      [(false, true), (true, false), (false, true), (true, true)]) := by
  refine ⟨fun raw s e => ?_, by decide⟩
  have hR : ∀ b : Bool, fastReason b s e ≠ "" := fun b => fastReason_ne_empty b s e
  by_cases hs : 0 ≤ s.z <;> by_cases he : 0 ≤ e.z <;> by_cases hlt : s.z < e.z <;>
    cases hx : (mkLine raw).hasX <;> cases hy : (mkLine raw).hasY <;>
    cases hz : (mkLine raw).hasZ <;>
    simp [classifyFastMove, hs, he, hlt, hx, hy, hz, hR]

/-- Witness for claim C2: its concrete classification sequence, read off the
theorem. -/
theorem c2_witness :
    (loadFile "demo.nc" ["G0 Z5", "G1 X10 Y10", "G1 Z-2", "G1 Z5"]).lines.map
        (fun l => (l.isFastMove, l.fastMoveReason.isEmpty)) =
      [(false, true), (true, false), (false, true), (true, true)] :=
  c2_classification.2

theorem markFirst_mem {l : List Line} {ln : Line} (h : ln ∈ markFirst l) :
    ∃ x ∈ l, ln = x ∨ ln = { x with isFirst := true } := by
  induction l with
  | nil => simp [markFirst] at h
  | cons a t ih =>
    unfold markFirst at h
    split at h
    · rcases List.mem_cons.mp h with h2 | h2
      · exact ⟨a, by simp, Or.inr h2⟩
      · exact ⟨ln, by simp [h2], Or.inl rfl⟩
    · rcases List.mem_cons.mp h with h2 | h2
      · exact ⟨a, by simp, Or.inl h2⟩
      · obtain ⟨x, hx, hor⟩ := ih h2
        exact ⟨x, by simp [hx], hor⟩

theorem loadFile_drilling (path : String) (raws : List String)
    (h : extractIsDrilling raws = true) :
    (loadFile path raws).lines = markFirst (raws.map mkLine) ∧
    (loadFile path raws).allowFastMoves = false := by
  constructor <;> simp [loadFile, h]

theorem axesTag_ne_FAST (ln : Line) : axesTag ln ≠ "FAST" := by
  cases hx : ln.hasX <;> cases hy : ln.hasY <;> cases hz : ln.hasZ <;>
    simp [axesTag, hx, hy, hz]

theorem addTags_false_mem {lns : List Line} {b : Bool} {ln : Line}
    (h : ln ∈ addTagsFilePass false b lns) : ∃ x ∈ lns, ln = parseTags x := by
  induction lns generalizing b with
  | nil => simp [addTagsFilePass] at h
  | cons a t ih =>
    unfold addTagsFilePass at h
    split at h
    · split at h
      · obtain ⟨x, hx, he⟩ := ih h
        exact ⟨x, by simp [hx], he⟩
      · simp only [Bool.false_eq_true, if_false] at h
        rcases List.mem_cons.mp h with h2 | h2
        · exact ⟨a, by simp, h2⟩
        · obtain ⟨x, hx, he⟩ := ih h2
          exact ⟨x, by simp [hx], he⟩
    · obtain ⟨x, hx, he⟩ := ih h
      exact ⟨x, by simp [hx], he⟩

/-- Claim C8: a drilling file never runs the tracker or the classifier:
every line keeps the default zero start and end coordinates and no fast-move
mark, and after the tagging pass no line of the file carries the FAST tag. -/
theorem c8_drilling_frame (path : String) (raws : List String)
    (h : extractIsDrilling raws = true) :
    (∀ ln ∈ (loadFile path raws).lines,
      ln.startCoord = ⟨0, 0, 0⟩ ∧ ln.endCoord = ⟨0, 0, 0⟩ ∧ ln.isFastMove = false) ∧
    (∀ ln ∈ addTagsFilePass (loadFile path raws).allowFastMoves false (loadFile path raws).lines,
      "FAST" ∉ ln.tags) := by
  obtain ⟨hl, ha⟩ := loadFile_drilling path raws h
  constructor
  · intro ln hln
    rw [hl] at hln
    obtain ⟨x, hx, hor⟩ := markFirst_mem hln
    obtain ⟨raw, _, rfl⟩ := List.mem_map.mp hx
    rcases hor with rfl | rfl <;> exact ⟨rfl, rfl, rfl⟩
  · intro ln hln
    rw [ha, hl] at hln
    obtain ⟨x, hx, rfl⟩ := addTags_false_mem hln
    obtain ⟨x0, hx0, hor⟩ := markFirst_mem hx
    obtain ⟨raw, _, rfl⟩ := List.mem_map.mp hx0
    have hfast : x.isFastMove = false := by rcases hor with rfl | rfl <;> rfl
    have htags : x.tags = [] := by rcases hor with rfl | rfl <;> rfl
    have haxes := axesTag_ne_FAST x
    intro hmem
    have hmem2 : "FAST" ∈ x.tags ++ (if x.isFastMove then ["FAST"] else []) ++
        [axesTag x] ++
        (if decide (0 ≤ x.startCoord.z) && decide (0 ≤ x.endCoord.z) then ["UNENGAGED"]
         else []) := hmem
    rw [htags] at hmem2
    simp only [hfast] at hmem2
    simp at hmem2
    exact haxes hmem2.symm

theorem runTracker_tags {lns : List Line} {st : TrackState} {ln : Line}
    (h : ln ∈ (runTracker st lns).1) : ∃ x ∈ lns, ln.tags = x.tags := by
  induction lns generalizing st with
  | nil => simp [runTracker] at h
  | cons a t ih =>
    simp only [runTracker] at h
    rcases List.mem_cons.mp h with h2 | h2
    · exact ⟨a, by simp, by rw [h2]⟩
    · obtain ⟨x, hx, he⟩ := ih h2
      exact ⟨x, by simp [hx], he⟩

theorem loadFile_tags_nil (path : String) (raws : List String) :
    ∀ ln ∈ (loadFile path raws).lines, ln.tags = [] := by
  have hbase : ∀ x ∈ markFirst (raws.map mkLine), x.tags = [] := by
    intro x hx
    obtain ⟨x0, hx0, hor⟩ := markFirst_mem hx
    obtain ⟨raw, _, rfl⟩ := List.mem_map.mp hx0
    rcases hor with rfl | rfl <;> rfl
  intro ln hln
  by_cases h : extractIsDrilling raws = true
  · rw [(loadFile_drilling path raws h).1] at hln
    exact hbase ln hln
  · rw [loadFile_lines_not_drilling path raws (by simpa using h)] at hln
    obtain ⟨x, hx, he⟩ := runTracker_tags hln
    rw [he]
    exact hbase x hx

theorem addTags_mem_univ {P : Line → Prop} :
    ∀ (lns : List Line) (af b : Bool),
      (∀ x ∈ lns, P (parseTags x) ∧ P (resetLineOf (parseTags x))) →
      ∀ ln ∈ addTagsFilePass af b lns, P ln := by
  intro lns
  induction lns with
  | nil => intro af b _ ln h; simp [addTagsFilePass] at h
  | cons a t ih =>
    intro af b hP ln h
    have hPa := hP a (by simp)
    have hPt : ∀ x ∈ t, P (parseTags x) ∧ P (resetLineOf (parseTags x)) :=
      fun x hx => hP x (List.mem_cons_of_mem _ hx)
    unfold addTagsFilePass at h
    dsimp only at h
    repeat' split at h
    all_goals
      first
      | exact ih _ _ hPt ln h
      | (rcases List.mem_cons.mp h with h2 | h2
         · first
           | (rw [h2]; exact hPa.1)
           | (rw [h2]; exact hPa.2)
         · first
           | exact ih _ _ hPt ln h2
           | (rcases List.mem_cons.mp h2 with h3 | h3
              · rw [h3]; exact hPa.1
              · exact ih _ _ hPt ln h3))

theorem axesTag_ne_RESET (ln : Line) : axesTag ln ≠ "RESET-FR" := by
  cases hx : ln.hasX <;> cases hy : ln.hasY <;> cases hz : ln.hasZ <;>
    simp [axesTag, hx, hy, hz]

theorem resetLineOf_tags (ln : Line) : (resetLineOf ln).tags = ["RESET-FR"] := rfl

/-- Claim C10: in the tagging pass of any loaded file, a line carrying the
RESET-FR tag carries exactly that one tag, tag derivation never having been
applied to it, and under an active filter tag set containing any tag other
than RESET-FR the synthetic line fails the tag filter and is dropped from
the emitted content. -/
theorem c10_reset_line (path : String) (raws : List String) :
    ∀ ln ∈ addTagsFilePass (loadFile path raws).allowFastMoves false (loadFile path raws).lines,
      "RESET-FR" ∈ ln.tags →
      ln.tags = ["RESET-FR"] ∧
      (∀ (fr : Option String) (ftags : List String) (af : Bool),
        (∃ t ∈ ftags, t ≠ "RESET-FR") →
        contentSection fr true ftags af [ln] = []) := by
  refine addTags_mem_univ (loadFile path raws).lines _ false (fun x hx => ⟨?_, ?_⟩)
  · -- a tagged original never carries RESET-FR
    intro hmem
    exfalso
    have htags : x.tags = [] := loadFile_tags_nil path raws x hx
    have hmem2 : "RESET-FR" ∈ x.tags ++ (if x.isFastMove then ["FAST"] else []) ++
        [axesTag x] ++
        (if decide (0 ≤ x.startCoord.z) && decide (0 ≤ x.endCoord.z) then ["UNENGAGED"]
         else []) := hmem
    rw [htags] at hmem2
    simp at hmem2
    exact axesTag_ne_RESET x hmem2.symm
  · intro _
    refine ⟨resetLineOf_tags _, ?_⟩
    intro fr ftags af ⟨t, ht, hne⟩
    have h1 : (resetLineOf (parseTags x)).ignored = false := rfl
    have h2 : (resetLineOf (parseTags x)).isComment = false := rfl
    have h3 : (jsTrim (resetLineOf (parseTags x)).raw).isEmpty = false := rfl
    have hm : (resetLineOf (parseTags x)).matchTags ftags = false := by
      unfold Line.matchTags
      refine List.all_eq_false.mpr ⟨t, ht, ?_⟩
      rw [resetLineOf_tags]
      simp [hne]
    simp [contentSection, h1, h2, h3, hm]

/-- Witness for claim C10 at a concrete file whose fast-to-not-fast
transition inserts one synthetic reset line. -/
theorem c10_witness :
    ((addTagsFilePass (loadFile "w.nc" ["(w)", "G1 X5", "G1 Z-1"]).allowFastMoves false
        (loadFile "w.nc" ["(w)", "G1 X5", "G1 Z-1"]).lines).getD 1 default).tags =
      ["RESET-FR"] ∧
    contentSection none true ["FAST"] true
      [(addTagsFilePass (loadFile "w.nc" ["(w)", "G1 X5", "G1 Z-1"]).allowFastMoves false
          (loadFile "w.nc" ["(w)", "G1 X5", "G1 Z-1"]).lines).getD 1 default] = [] :=
  have h := c10_reset_line "w.nc" ["(w)", "G1 X5", "G1 Z-1"] _ (by decide) (by decide)
  ⟨h.1, h.2 none ["FAST"] true ⟨"FAST", by decide, by decide⟩⟩

/-- The pending synthetic line of the state-machine formulation: emitted at
the head of the remaining sequence when the flag says the previous retained
line was fast and the head is not. -/
def resetPre (b : Bool) : List Line → List Line
  | x :: _ => if b && !x.isFastMove then [resetLineOf x] else []
  | [] => []

theorem resetPre_false (l : List Line) : resetPre false l = [] := by
  cases l <;> simp [resetPre]

theorem addTags_spec_aux (lns : List Line) :
    ∀ b, addTagsFilePass true b lns =
      resetPre b ((retainedOf lns).map parseTags) ++
        specResets ((retainedOf lns).map parseTags) := by
  induction lns with
  | nil => intro b; simp [addTagsFilePass, retainedOf, resetPre, specResets]
  | cons a t ih =>
    intro b
    by_cases h1 : (!a.ignored && !a.isComment) = true
    · by_cases h2 : (jsTrim a.raw).isEmpty = true
      · have hr : retainedOf (a :: t) = retainedOf t := by
          simp [retainedOf, List.filter_cons, h1, h2]
        unfold addTagsFilePass
        rw [if_pos h1, if_pos h2, hr]
        exact ih b
      · have hr : retainedOf (a :: t) = a :: retainedOf t := by
          simp [retainedOf, List.filter_cons, h1, h2]
        unfold addTagsFilePass
        rw [if_pos h1, if_neg h2, hr]
        dsimp only
        rw [List.map_cons]
        cases hf : (parseTags a).isFastMove with
        | true =>
          cases hM : (retainedOf t).map parseTags with
          | nil => simp [ih true, hM, resetPre, specResets, hf]
          | cons m t2 => simp [ih true, hM, resetPre, specResets, hf]
        | false =>
          cases b with
          | true =>
            cases hM : (retainedOf t).map parseTags with
            | nil => simp [ih false, hM, resetPre, specResets, hf]
            | cons m t2 => simp [ih false, hM, resetPre, specResets, hf]
          | false =>
            cases hM : (retainedOf t).map parseTags with
            | nil => simp [ih false, hM, resetPre, specResets, hf]
            | cons m t2 => simp [ih false, hM, resetPre, specResets, hf]
    · have hr : retainedOf (a :: t) = retainedOf t := by
        simp only [retainedOf, List.filter_cons]
        rw [if_neg]
        simp only [Bool.and_eq_true] at h1 ⊢
        intro hc
        exact h1 ⟨hc.1.1, hc.1.2⟩
      unfold addTagsFilePass
      rw [if_neg h1, hr]
      exact ih b

/-- Claim C3: the per-file tagging pass of a file allowing fast moves equals
the specification-worded insertion on its retained, tagged sequence: exactly
one synthetic RESET-FR clone immediately before every not-fast line that
directly follows a fast line, none between two lines of equal
classification, and none on a not-fast-to-fast transition. -/
theorem c3_reset_insertion (lns : List Line) :
    addTagsFilePass true false lns = specResets ((retainedOf lns).map parseTags) := by
  rw [addTags_spec_aux lns false, resetPre_false, List.nil_append]

/-- Witness for claim C3 at a concrete fast-to-not-fast file. -/
theorem c3_witness :
    addTagsFilePass true false (loadFile "w.nc" ["(w)", "G1 X5", "G1 Z-1"]).lines =
      specResets ((retainedOf (loadFile "w.nc" ["(w)", "G1 X5", "G1 Z-1"]).lines).map
        parseTags) :=
  c3_reset_insertion (loadFile "w.nc" ["(w)", "G1 X5", "G1 Z-1"]).lines

/-- Witness for claim C8 at a concrete drilling file. -/
theorem c8_witness :
    (((loadFile "d.nc" ["(Drill pattern)", "G1 X10"]).lines.getD 1 default).startCoord =
        ⟨0, 0, 0⟩ ∧
      ((loadFile "d.nc" ["(Drill pattern)", "G1 X10"]).lines.getD 1 default).endCoord =
        ⟨0, 0, 0⟩ ∧
      ((loadFile "d.nc" ["(Drill pattern)", "G1 X10"]).lines.getD 1 default).isFastMove =
        false) ∧
    "FAST" ∉ ((addTagsFilePass (loadFile "d.nc" ["(Drill pattern)", "G1 X10"]).allowFastMoves
        false (loadFile "d.nc" ["(Drill pattern)", "G1 X10"]).lines).getD 0 default).tags :=
  ⟨(c8_drilling_frame "d.nc" ["(Drill pattern)", "G1 X10"] (by decide)).1 _ (by decide),
   (c8_drilling_frame "d.nc" ["(Drill pattern)", "G1 X10"] (by decide)).2 _ (by decide)⟩

/-- Claim C4 evaluation at a two-member group: the source shares one tagging
output array across the members and reassigns every member's line list to it
before the content pass reads comments back from it, so the comment line of
file one, though present in the loaded file, is absent from the whole merged
content, while file one's only motion line appears in both member blocks. -/
theorem c4_blocks_eval :
    ((loadFile "a.nc" ["(file one)", "G1 X111"]).lines.countP (·.isComment) = 1) ∧
    "(file one)" ∉ mergeGroupContent none false []
        [loadFile "a.nc" ["(file one)", "G1 X111"],
         loadFile "b.nc" ["(file two)", "G1 Z-3"]] ∧
    ((mergeGroupContent none false []
        [loadFile "a.nc" ["(file one)", "G1 X111"],
         loadFile "b.nc" ["(file two)", "G1 Z-3"]]).countP
      (fun l => occursIn "X111" l) = 2) :=
  ⟨by decide, by decide, by decide⟩

/-- Claim C5 evaluation at a drilling member: its retained line is emitted
bare, with neither fixed-width padding nor the trailing coordinate and tag
comment, because the width argument of the padding call is a string whose
numeric value is NaN; the same line in a fast-allowing member would carry
the trailing comment. -/
theorem c5_drilling_emit_eval :
    ((mergeGroupContent none false [] [loadFile "d.nc" ["(Drill holes)", "G1 X10"]]).filter
      (fun l => occursIn "X10" l) = ["G1 X10"]) ∧
    (emitContentLine none false
      ((addTagsFilePass false false
        (loadFile "d.nc" ["(Drill holes)", "G1 X10"]).lines).getD 0 default) = "G1 X10") ∧
    (occursIn "; "
      (emitContentLine none true
        ((addTagsFilePass false false
          (loadFile "d.nc" ["(Drill holes)", "G1 X10"]).lines).getD 0 default)) = true) :=
  ⟨by decide, by decide, by decide⟩

theorem lookup_append {β : Type} (k : String) (l1 l2 : List (String × β)) :
    (l1 ++ l2).lookup k =
      match l1.lookup k with
      | some v => some v
      | none => l2.lookup k := by
  induction l1 with
  | nil => rfl
  | cons e t ih =>
    obtain ⟨k1, v1⟩ := e
    simp only [List.cons_append, List.lookup]
    cases h : k == k1 <;> simp [h, ih]

theorem tdStep_def (acc : List (String × ToolEntry) × List String)
    (f : String × List String) (k : String) (d : Option ℚ)
    (h : fileFirstToolDef f.2 = some (k, d)) :
    tdStep acc f =
      (if (acc.1.lookup k).isSome then acc.1 else acc.1 ++ [(k, ⟨d, f.1⟩)],
       acc.2 ++ [f.1]) := by
  unfold tdStep
  rw [h]

theorem tdFold_defs_mono (fs : List (String × List String)) :
    ∀ acc, ∀ p ∈ acc.2, p ∈ (fs.foldl tdStep acc).2 := by
  induction fs with
  | nil => intro acc p hp; exact hp
  | cons f t ih =>
    intro acc p hp
    apply ih
    unfold tdStep
    cases hd : fileFirstToolDef f.2 with
    | none => exact hp
    | some kd => simpa using Or.inl hp

theorem tdFold_dict_mono (fs : List (String × List String)) :
    ∀ acc (k : String) (v : ToolEntry), acc.1.lookup k = some v →
      (fs.foldl tdStep acc).1.lookup k = some v := by
  induction fs with
  | nil => intro acc k v h; exact h
  | cons f t ih =>
    intro acc k v h
    apply ih
    unfold tdStep
    cases hd : fileFirstToolDef f.2 with
    | none => exact h
    | some kd =>
      dsimp only
      split
    <;> first
      | exact h
      | (rw [lookup_append, h])

theorem tdFold_pre_none (k : String) :
    ∀ (pre : List (String × List String)) (acc : List (String × ToolEntry) × List String),
      acc.1.lookup k = none →
      (∀ e ∈ pre, ∀ (k2 : String) (d2 : Option ℚ),
        fileFirstToolDef e.2 = some (k2, d2) → k2 ≠ k) →
      (pre.foldl tdStep acc).1.lookup k = none := by
  intro pre
  induction pre with
  | nil => intro acc h _; exact h
  | cons e t ih =>
    intro acc h hP
    apply ih
    · unfold tdStep
      cases hd : fileFirstToolDef e.2 with
      | none => exact h
      | some kd =>
        dsimp only
        split
        · exact h
        · rw [lookup_append, h]
          have hne : kd.1 ≠ k := hP e (by simp) kd.1 kd.2 (by rw [hd])
          have hb : (k == kd.1) = false := beq_eq_false_iff_ne.mpr (Ne.symm hne)
          simp [List.lookup, hb]
    · intro e2 he2 k2 d2 hdd
      exact hP e2 (by simp [he2]) k2 d2 hdd

/-- Claim C6: a file whose text contains a tool-definition comment line is
excluded from the mergeable file set, and the catalog maps the key of the
file's first definition line to its parsed diameter, the first definition in
file-enumeration order winning and later duplicates of the same key being
ignored; concretely, a file containing (T3 D=6.00 ...) is excluded and
yields entry T3 with diameter 6.00. -/
theorem c6_tool_catalog :
    (∀ (pre post : List (String × List String)) (fp : String) (lns : List String)
        (k : String) (d : Option ℚ),
      fileFirstToolDef lns = some (k, d) →
      fp ∈ (buildToolDict (pre ++ (fp, lns) :: post)).2 ∧
      fp ∉ mergeablePaths (pre ++ (fp, lns) :: post) ∧
      ((∀ e ∈ pre, ∀ (k2 : String) (d2 : Option ℚ),
          fileFirstToolDef e.2 = some (k2, d2) → k2 ≠ k) →
        (buildToolDict (pre ++ (fp, lns) :: post)).1.lookup k = some ⟨d, fp⟩)) ∧
    (buildToolDict [("a.nc", ["(T3 D=6.00 flat endmill)"])] =
        ([("T3", ⟨some 6, "a.nc"⟩)], ["a.nc"]) ∧
      mergeablePaths [("a.nc", ["(T3 D=6.00 flat endmill)"])] = []) := by
  constructor
  · intro pre post fp lns k d hdef
    have hdefs : fp ∈ (buildToolDict (pre ++ (fp, lns) :: post)).2 := by
      unfold buildToolDict
      rw [List.foldl_append, List.foldl_cons]
      apply tdFold_defs_mono
      rw [tdStep_def (pre.foldl tdStep ([], [])) (fp, lns) k d hdef]
      simp
    refine ⟨hdefs, ?_, ?_⟩
    · intro hmem
      unfold mergeablePaths at hmem
      rw [List.mem_filter] at hmem
      have hc := hmem.2
      simp at hc
      exact hc hdefs
    · intro hpre
      unfold buildToolDict
      rw [List.foldl_append, List.foldl_cons]
      apply tdFold_dict_mono
      have hnone := tdFold_pre_none k pre ([], []) rfl hpre
      rw [tdStep_def (pre.foldl tdStep ([], [])) (fp, lns) k d hdef]
      dsimp only
      rw [if_neg (by rw [hnone]; simp)]
      rw [lookup_append, hnone]
      simp [List.lookup]
  · exact ⟨by decide, by decide⟩

/-- Witness for claim C6: two enumerated files both defining T3; the first
is catalogued, both are excluded. -/
theorem c6_witness :
    "a.nc" ∈ (buildToolDict
        [("a.nc", ["(T3 D=6.00 flat endmill)"]), ("b.nc", ["(T3 D=9.99)"])]).2 ∧
    "a.nc" ∉ mergeablePaths
        [("a.nc", ["(T3 D=6.00 flat endmill)"]), ("b.nc", ["(T3 D=9.99)"])] ∧
    (buildToolDict
        [("a.nc", ["(T3 D=6.00 flat endmill)"]), ("b.nc", ["(T3 D=9.99)"])]).1.lookup "T3" =
      some ⟨some 6, "a.nc"⟩ :=
  have h := c6_tool_catalog.1 [] [("b.nc", ["(T3 D=9.99)"])] "a.nc"
    ["(T3 D=6.00 flat endmill)"] "T3" (some 6) (by decide)
  ⟨h.1, h.2.1, h.2.2 (by simp)⟩

theorem insertByOperation_perm (a : FileObject) :
    ∀ l, List.Perm (insertByOperation a l) (a :: l) := by
  intro l
  induction l with
  | nil => simp [insertByOperation]
  | cons b t ih =>
    unfold insertByOperation
    split
    · exact List.Perm.refl _
    · exact (ih.cons b).trans (List.Perm.swap a b t)

theorem sortByOperation_perm : ∀ fs, List.Perm (sortByOperation fs) fs := by
  intro fs
  induction fs with
  | nil => simp [sortByOperation]
  | cons a t ih => exact (insertByOperation_perm a _).trans (ih.cons a)

theorem insertByOperation_pairwise (a : FileObject) :
    ∀ l, List.Pairwise (fun x y => x.operation ≤ y.operation) l →
      List.Pairwise (fun x y => x.operation ≤ y.operation) (insertByOperation a l) := by
  intro l
  induction l with
  | nil => intro _; simp [insertByOperation]
  | cons b t ih =>
    intro h
    obtain ⟨hb, ht⟩ := List.pairwise_cons.mp h
    unfold insertByOperation
    split
    · rename_i hab
      refine List.pairwise_cons.mpr ⟨?_, h⟩
      intro x hx
      rcases List.mem_cons.mp hx with rfl | hx2
      · exact hab
      · exact le_trans hab (hb x hx2)
    · rename_i hab
      have hba : b.operation < a.operation := Nat.lt_of_not_le hab
      refine List.pairwise_cons.mpr ⟨?_, ih ht⟩
      intro x hx
      rcases List.mem_cons.mp ((insertByOperation_perm a t).mem_iff.mp hx) with h2 | h2
      · rw [h2]
        omega
      · exact hb x h2

theorem sortByOperation_pairwise :
    ∀ fs, List.Pairwise (fun x y => x.operation ≤ y.operation) (sortByOperation fs) := by
  intro fs
  induction fs with
  | nil => simp [sortByOperation]
  | cons a t ih => exact insertByOperation_pairwise a _ ih

theorem insertByOperation_filter (a : FileObject) (k : ℕ) :
    ∀ l, (insertByOperation a l).filter (fun f => f.operation == k) =
      if a.operation == k then a :: l.filter (fun f => f.operation == k)
      else l.filter (fun f => f.operation == k) := by
  intro l
  induction l with
  | nil =>
    by_cases h : a.operation = k
    · simp [insertByOperation, List.filter, h]
    · have hbk : (a.operation == k) = false := beq_eq_false_iff_ne.mpr h
      simp [insertByOperation, List.filter, h, hbk]
  | cons b t ih =>
    unfold insertByOperation
    split
    · rw [List.filter_cons]
    · rename_i hab
      have hba : b.operation < a.operation := Nat.lt_of_not_le hab
      rw [List.filter_cons, List.filter_cons, ih]
      by_cases hak : a.operation = k <;> by_cases hbk : b.operation = k
      · exfalso; omega
      · simp [hak, hbk]
      · simp [hak, hbk]
      · simp [hak, hbk]

theorem sortByOperation_filter (k : ℕ) :
    ∀ fs, (sortByOperation fs).filter (fun f => f.operation == k) =
      fs.filter (fun f => f.operation == k) := by
  intro fs
  induction fs with
  | nil => rfl
  | cons a t ih =>
    show (insertByOperation a (sortByOperation t)).filter _ = _
    rw [insertByOperation_filter, List.filter_cons, ih]

theorem lookup_insertGroup (m : List (String × List FileObject)) (k : String) (f : FileObject)
    (g : String) :
    (insertGroup m k f).lookup g =
      if g = k then some (((m.lookup k).getD []) ++ [f]) else m.lookup g := by
  induction m with
  | nil =>
    by_cases h : g = k
    · subst h; simp [insertGroup, List.lookup]
    · have hb : (g == k) = false := beq_eq_false_iff_ne.mpr h
      simp [insertGroup, List.lookup, hb, h]
  | cons e t ih =>
    obtain ⟨k2, l2⟩ := e
    unfold insertGroup
    by_cases h2 : k2 = k
    · subst h2
      rw [if_pos (by simp)]
      by_cases hg : g = k2
      · subst hg
        simp [List.lookup]
      · have hb : (g == k2) = false := beq_eq_false_iff_ne.mpr hg
        simp [List.lookup, hb, hg]
    · rw [if_neg (by simpa using h2)]
      have hbk : (k == k2) = false := beq_eq_false_iff_ne.mpr (fun he => h2 he.symm)
      by_cases hg : g = k2
      · subst hg
        simp [List.lookup, h2]
      · have hb : (g == k2) = false := beq_eq_false_iff_ne.mpr hg
        simp [List.lookup, hb, hbk, ih]

theorem lookup_groupFold :
    ∀ (fs : List FileObject) (acc : List (String × List FileObject)) (g : String),
      (fs.foldl (fun m f => insertGroup m (groupKeyOf f) f) acc).lookup g =
        (match acc.lookup g with
         | some x => some (x ++ groupOf fs g)
         | none => if (groupOf fs g).isEmpty then none else some (groupOf fs g)) := by
  intro fs
  induction fs with
  | nil =>
    intro acc g
    cases h : acc.lookup g <;> simp [groupOf, h]
  | cons f t ih =>
    intro acc g
    rw [List.foldl_cons, ih, lookup_insertGroup]
    unfold groupOf
    rw [List.filter_cons]
    by_cases hg : g = groupKeyOf f
    · have hb : (groupKeyOf f == g) = true := by simp [hg]
      rw [if_pos hg]
      subst hg
      cases hacc : acc.lookup (groupKeyOf f) <;> simp [hacc, hb]
    · have hb : (groupKeyOf f == g) = false := beq_eq_false_iff_ne.mpr (fun he => hg he.symm)
      rw [if_neg hg]
      cases hacc : acc.lookup g <;> simp [hacc, hb]

theorem groupBySetupAndTool_lookup (fs : List FileObject) (g : String)
    (l : List FileObject) (h : (groupBySetupAndTool fs).lookup g = some l) :
    l = groupOf fs g := by
  unfold groupBySetupAndTool at h
  rw [lookup_groupFold fs [] g] at h
  simp only [List.lookup] at h
  split at h
  · exact absurd h (by simp)
  · exact (Option.some_inj.mp h).symm

/-- Claim C7: the merge ordering is a stable ascending sort by operation
index: the sorted list is pairwise ordered, keeps every equal-index
subsequence in prior order, and is a permutation of the input; a missing
index loads as zero; every group drawn from the sorted list is pairwise
ordered by index, and concretely two files of one setup-and-tool key with
indices two and one merge in the order one then two. -/
theorem c7_stable_sort :
    (∀ fs : List FileObject,
      List.Pairwise (fun x y => x.operation ≤ y.operation) (sortByOperation fs) ∧
      (∀ k : ℕ, (sortByOperation fs).filter (fun f => f.operation == k) =
        fs.filter (fun f => f.operation == k)) ∧
      List.Perm (sortByOperation fs) fs ∧
      (∀ (g : String) (l : List FileObject),
        (groupBySetupAndTool (sortByOperation fs)).lookup g = some l →
        List.Pairwise (fun x y => x.operation ≤ y.operation) l)) ∧
    (∀ (path : String) (raws : List String), extractOperation path = none →
      (loadFile path raws).operation = 0) ∧
    ((groupBySetupAndTool (sortByOperation
        [loadFile "b op 2.nc" ["(Face SETUP=S1)", "T2 M6", "G1 X2"],
         loadFile "a op 1.nc" ["(Face SETUP=S1)", "T2 M6", "G1 X1"]])).map
      (fun e => (e.1, e.2.map (·.path))) =
      [("S1||T2", ["a op 1.nc", "b op 2.nc"])]) := by
  refine ⟨fun fs => ⟨sortByOperation_pairwise fs, fun k => sortByOperation_filter k fs,
    sortByOperation_perm fs, ?_⟩, ?_, by decide⟩
  · intro g l h
    rw [groupBySetupAndTool_lookup _ _ _ h]
    exact (sortByOperation_pairwise fs).sublist (List.filter_sublist _)
  · intro path raws h
    simp [loadFile, h]

/-- Witness for claim C7: the group of the two demonstration files, read
back from the grouping of the sorted list, is pairwise ordered by operation
index. -/
theorem c7_witness :
    List.Pairwise (fun x y => x.operation ≤ y.operation)
      [loadFile "a op 1.nc" ["(Face SETUP=S1)", "T2 M6", "G1 X1"],
       loadFile "b op 2.nc" ["(Face SETUP=S1)", "T2 M6", "G1 X2"]] :=
  (c7_stable_sort.1
      [loadFile "b op 2.nc" ["(Face SETUP=S1)", "T2 M6", "G1 X2"],
       loadFile "a op 1.nc" ["(Face SETUP=S1)", "T2 M6", "G1 X1"]]).2.2.2
    "S1||T2" _ (by decide)

/-- Claim C9 counterexample: with the override rendered 500 one application
to the line F1.5.7 yields F500.7, and a second application yields F500, so
the substitution is not idempotent as claimed. -/
theorem c9_counterexample :
    processFeedRate (some "500") (processFeedRate (some "500") "F1.5.7") ≠
      processFeedRate (some "500") "F1.5.7" := by decide

theorem digit_word {c : Char} (h : digitChar c = true) : wordChar c = true := by
  simp only [digitChar] at h
  simp [wordChar, Char.isAlphanum, h]

theorem takeWhile_append_all {p : Char → Bool} :
    ∀ (a b : List Char), (∀ c ∈ a, p c = true) →
      (a ++ b).takeWhile p = a ++ b.takeWhile p ∧ (a ++ b).dropWhile p = b.dropWhile p := by
  intro a
  induction a with
  | nil => intro b _; simp
  | cons x t ih =>
    intro b h
    have hx : p x = true := h x (by simp)
    obtain ⟨h1, h2⟩ := ih b (fun c hc => h c (by simp [hc]))
    simp [List.takeWhile_cons, List.dropWhile_cons, hx, h1, h2]

theorem dropWhile_head_false {p : Char → Bool} :
    ∀ (l : List Char) (c : Char) (t : List Char), l.dropWhile p = c :: t → p c = false := by
  intro l
  induction l with
  | nil => intro c t h; simp at h
  | cons a l2 ih =>
    intro c t h
    rw [List.dropWhile_cons] at h
    split at h
    · exact ih c t h
    · rename_i hpa
      injection h with h1 _
      rw [← h1]
      simpa using hpa

theorem dropWhile_length_le {p : Char → Bool} (l : List Char) :
    (l.dropWhile p).length ≤ l.length :=
  (List.dropWhile_sublist p).length_le

theorem matchFR_true_none (l : List Char) : matchFR true l = none := by
  simp [matchFR]

theorem fracTry_some_boundary {l r : List Char} (h : fracTry l = some r) :
    boundaryAfter r = true := by
  unfold fracTry at h
  split at h
  · dsimp only at h
    split at h
    · exact absurd h (by simp)
    · split at h
      · rename_i hb
        injection h with h1
        rw [← h1]
        exact hb
      · exact absurd h (by simp)
  · exact absurd h (by simp)

theorem fracTry_not_dot {y : Char} {l : List Char} (hy : ¬y = '.') :
    fracTry (y :: l) = none := by
  unfold fracTry
  split
  · rename_i heq
    injection heq with h1 _
    exact (hy h1).elim
  · rfl

theorem fracTry_length {l r : List Char} (h : fracTry l = some r) : r.length < l.length := by
  cases l with
  | nil => simp [fracTry] at h
  | cons y l2 =>
    by_cases hy : y = '.'
    · subst hy
      simp only [fracTry] at h
      split at h
      · exact absurd h (by simp)
      · split at h
        · injection h with h1
          have h2 := dropWhile_length_le (p := digitChar) l2
          subst h1
          simp only [List.length_cons]
          omega
        · exact absurd h (by simp)
    · rw [fracTry_not_dot hy] at h
      exact absurd h (by simp)

theorem matchFR_length {p : Bool} {l r : List Char} (h : matchFR p l = some r) :
    r.length < l.length := by
  unfold matchFR at h
  split at h
  · exact absurd h (by simp)
  · split at h
    · exact absurd h (by simp)
    · rename_i c rest
      split at h
      · dsimp only at h
        split at h
        · exact absurd h (by simp)
        · split at h
          · rename_i r2 hfrac
            have h2 := fracTry_length hfrac
            have h3 := dropWhile_length_le (p := digitChar) rest
            injection h with h1
            subst h1
            simp only [List.length_cons]
            omega
          · split at h
            · injection h with h1
              have h3 := dropWhile_length_le (p := digitChar) rest
              subst h1
              simp only [List.length_cons]
              omega
            · exact absurd h (by simp)
      · exact absurd h (by simp)

theorem matchFR_some_boundary {p : Bool} {l r : List Char} (h : matchFR p l = some r) :
    boundaryAfter r = true := by
  unfold matchFR at h
  split at h
  · exact absurd h (by simp)
  · split at h
    · exact absurd h (by simp)
    · split at h
      · dsimp only at h
        split at h
        · exact absurd h (by simp)
        · split at h
          · rename_i r2 hfrac
            injection h with h1
            rw [← h1]
            exact fracTry_some_boundary hfrac
          · split at h
            · rename_i hb1
              injection h with h1
              rw [← h1]
              exact hb1
            · exact absurd h (by simp)
      · exact absurd h (by simp)

theorem replFRAuxF_congr (R : List Char) :
    ∀ (f1 : ℕ) (l : List Char) (f2 : ℕ) (p : Bool),
      l.length ≤ f1 → l.length ≤ f2 →
      replFRAuxF R f1 p l = replFRAuxF R f2 p l := by
  intro f1
  induction f1 with
  | zero =>
    intro l f2 p h1 _
    have h0 : l = [] := List.length_eq_zero.mp (Nat.le_zero.mp h1)
    subst h0
    cases f2 <;> rfl
  | succ n ih =>
    intro l f2 p h1 h2
    cases l with
    | nil => cases f2 <;> rfl
    | cons c s =>
      cases f2 with
      | zero => simp at h2
      | succ m =>
        cases hm : matchFR p (c :: s) with
        | some rest =>
          have hlen := matchFR_length hm
          simp only [replFRAuxF, hm]
          rw [ih rest m true (by simp only [List.length_cons] at h1 hlen ⊢; omega)
            (by simp only [List.length_cons] at h2 hlen ⊢; omega)]
        | none =>
          simp only [replFRAuxF, hm]
          rw [ih s m (wordChar c) (by simp only [List.length_cons] at h1; omega)
            (by simp only [List.length_cons] at h2; omega)]

theorem replFR_nil (R : List Char) (p : Bool) : replFR R p [] = [] := rfl

theorem replFR_cons_match {R : List Char} {p : Bool} {c : Char} {s rest : List Char}
    (h : matchFR p (c :: s) = some rest) :
    replFR R p (c :: s) = R ++ replFR R true rest := by
  unfold replFR
  simp only [List.length_cons, replFRAuxF, h]
  congr 1
  exact replFRAuxF_congr R s.length rest rest.length true
    (Nat.le_of_lt_succ (by simpa using matchFR_length h)) le_rfl

theorem replFR_cons_nomatch {R : List Char} {p : Bool} {c : Char} {s : List Char}
    (h : matchFR p (c :: s) = none) :
    replFR R p (c :: s) = c :: replFR R (wordChar c) s := by
  unfold replFR
  simp only [List.length_cons, replFRAuxF, h]

theorem replFR_boundary (R : List Char) {rest : List Char}
    (h : boundaryAfter rest = true) :
    (replFR R true rest).takeWhile digitChar = [] ∧
    (replFR R true rest).dropWhile digitChar = replFR R true rest ∧
    boundaryAfter (replFR R true rest) = true := by
  cases rest with
  | nil => simp [replFR_nil, boundaryAfter]
  | cons c t =>
    rw [replFR_cons_nomatch (matchFR_true_none _)]
    have hw : wordChar c = false := by simpa [boundaryAfter] using h
    have hd : digitChar c = false := by
      cases hdc : digitChar c
      · rfl
      · rw [digit_word hdc] at hw
        exact absurd hw (by simp)
    simp [List.takeWhile_cons, List.dropWhile_cons, hd, boundaryAfter, hw]

theorem digits_copy (R : List Char) :
    ∀ (d t : List Char), (∀ x ∈ d, digitChar x = true) →
      replFR R true (d ++ t) = d ++ replFR R true t := by
  intro d
  induction d with
  | nil => intro t _; rfl
  | cons x d2 ih =>
    intro t h
    have hx := h x (by simp)
    rw [List.cons_append, replFR_cons_nomatch (matchFR_true_none _), digit_word hx,
      ih t (fun c hc => h c (by simp [hc]))]
    rfl

theorem matchFR_R {ip fp out : List Char}
    (hip : ip ≠ []) (hfp : fp ≠ [])
    (hipd : ∀ c ∈ ip, digitChar c = true) (hfpd : ∀ c ∈ fp, digitChar c = true)
    (htw : out.takeWhile digitChar = []) (hdw : out.dropWhile digitChar = out)
    (hb : boundaryAfter out = true) :
    matchFR false ('F' :: (ip ++ '.' :: (fp ++ out))) = some out := by
  have hdot : digitChar '.' = false := by decide
  have htw1 : (ip ++ '.' :: (fp ++ out)).takeWhile digitChar = ip := by
    rw [(takeWhile_append_all ip ('.' :: (fp ++ out)) hipd).1]
    simp [List.takeWhile_cons, hdot]
  have hdw1 : (ip ++ '.' :: (fp ++ out)).dropWhile digitChar = '.' :: (fp ++ out) := by
    rw [(takeWhile_append_all ip ('.' :: (fp ++ out)) hipd).2]
    simp [List.dropWhile_cons, hdot]
  have htw2 : (fp ++ out).takeWhile digitChar = fp := by
    rw [(takeWhile_append_all fp out hfpd).1, htw, List.append_nil]
  have hdw2 : (fp ++ out).dropWhile digitChar = out := by
    rw [(takeWhile_append_all fp out hfpd).2, hdw]
  unfold matchFR
  simp only [Bool.false_eq_true, if_false]
  have hcF : ('F' == 'F' || 'F' == 'f') = true := by decide
  rw [if_pos hcF]
  rw [htw1, hdw1]
  rw [if_neg (by simpa using hip)]
  have hfrac : fracTry ('.' :: (fp ++ out)) = some out := by
    simp only [fracTry]
    rw [htw2, hdw2]
    rw [if_neg (by simpa using hfp), if_pos hb]
  rw [hfrac]

theorem matchFR_none_stable (R : List Char) {p : Bool} {c : Char} {s : List Char}
    (h : matchFR p (c :: s) = none) :
    matchFR p (c :: replFR R (wordChar c) s) = none := by
  cases p
  case true => exact matchFR_true_none _
  case false =>
    by_cases hc : (c == 'F' || c == 'f') = true
    · have hc2 : c = 'F' ∨ c = 'f' := by simpa using hc
      have hw : wordChar c = true := by
        rcases hc2 with h1 | h1 <;> rw [h1] <;> decide
      rw [hw]
      unfold matchFR at h ⊢
      simp only [Bool.false_eq_true, if_false] at h ⊢
      rw [if_pos hc] at h ⊢
      have hsplit := List.takeWhile_append_dropWhile (p := digitChar) (l := s)
      have hall : ∀ x ∈ s.takeWhile digitChar, digitChar x = true :=
        fun x hx => List.mem_takeWhile_imp hx
      cases hd : s.takeWhile digitChar with
      | nil =>
        cases hr : s.dropWhile digitChar with
        | nil =>
          have hs0 : s = [] := by rw [← hsplit, hd, hr]; rfl
          subst hs0
          rw [replFR_nil]
          simp
        | cons y r2 =>
          have hy : digitChar y = false := dropWhile_head_false s y r2 hr
          have hs0 : s = y :: r2 := by rw [← hsplit, hd, hr]; rfl
          rw [hs0, replFR_cons_nomatch (matchFR_true_none _)]
          simp [List.takeWhile_cons, hy]
      | cons x d2 =>
        rw [hd] at h
        simp only [List.isEmpty_cons, Bool.false_eq_true, if_false] at h
        have hall2 : ∀ u ∈ (x :: d2), digitChar u = true := by
          rw [← hd]; exact hall
        cases hr : s.dropWhile digitChar with
        | nil =>
          rw [hr] at h
          simp [fracTry, boundaryAfter] at h
        | cons y r2 =>
          rw [hr] at h
          have hy : digitChar y = false := dropWhile_head_false s y r2 hr
          have hyw : wordChar y = true := by
            cases hbw : wordChar y
            · exfalso
              have hb : boundaryAfter (y :: r2) = true := by simp [boundaryAfter, hbw]
              cases hfr : fracTry (y :: r2) with
              | some r3 =>
                rw [hfr] at h
                exact absurd h (by simp)
              | none =>
                rw [hfr] at h
                rw [if_pos hb] at h
                exact absurd h (by simp)
            · rfl
          have hyd : ¬y = '.' := by
            intro he
            rw [he] at hyw
            exact absurd hyw (by decide)
          have hcopy : replFR R true s = (x :: d2) ++ replFR R true (y :: r2) := by
            conv_lhs => rw [← hsplit, hd, hr]
            exact digits_copy R (x :: d2) (y :: r2) hall2
          rw [hcopy]
          obtain ⟨ht1, ht2⟩ :=
            takeWhile_append_all (x :: d2) (replFR R true (y :: r2)) hall2
          rw [ht1, ht2]
          rw [replFR_cons_nomatch (matchFR_true_none (y :: r2))]
          simp only [List.takeWhile_cons, List.dropWhile_cons, hy, Bool.false_eq_true,
            if_false]
          rw [fracTry_not_dot hyd]
          simp [boundaryAfter, hyw]
    · unfold matchFR at h ⊢
      simp only [Bool.false_eq_true, if_false] at h ⊢
      try rw [if_neg hc] at h ⊢
      try rw [if_neg hc]
      try exact h

theorem matchFR_some_prev {p : Bool} {l r : List Char} (h : matchFR p l = some r) :
    p = false := by
  cases p
  · rfl
  · rw [matchFR_true_none] at h
    exact absurd h (by simp)

theorem replFR_idem {ip fp : List Char} (hip : ip ≠ []) (hfp : fp ≠ [])
    (hipd : ∀ c ∈ ip, digitChar c = true) (hfpd : ∀ c ∈ fp, digitChar c = true) :
    ∀ (n : ℕ) (l : List Char) (p : Bool), l.length ≤ n →
      replFR ('F' :: (ip ++ '.' :: fp)) p (replFR ('F' :: (ip ++ '.' :: fp)) p l) =
        replFR ('F' :: (ip ++ '.' :: fp)) p l := by
  intro n
  induction n with
  | zero =>
    intro l p h
    have h0 : l = [] := List.length_eq_zero.mp (Nat.le_zero.mp h)
    subst h0
    rfl
  | succ m ih =>
    intro l p h
    cases l with
    | nil => rfl
    | cons c s =>
      cases hm : matchFR p (c :: s) with
      | none =>
        rw [replFR_cons_nomatch hm]
        rw [replFR_cons_nomatch (matchFR_none_stable _ hm)]
        rw [ih s (wordChar c) (by simp only [List.length_cons] at h; omega)]
      | some rest =>
        have hp : p = false := matchFR_some_prev hm
        subst hp
        have hlen : rest.length ≤ m := by
          have h2 := matchFR_length hm
          simp only [List.length_cons] at h2 h
          omega
        rw [replFR_cons_match hm]
        obtain ⟨ho1, ho2, ho3⟩ :=
          replFR_boundary ('F' :: (ip ++ '.' :: fp)) (matchFR_some_boundary hm)
        have hmR : matchFR false
            ('F' :: ((ip ++ '.' :: fp) ++ replFR ('F' :: (ip ++ '.' :: fp)) true rest)) =
            some (replFR ('F' :: (ip ++ '.' :: fp)) true rest) := by
          have h3 := matchFR_R hip hfp hipd hfpd ho1 ho2 ho3
          rw [show (ip ++ '.' :: fp) ++ replFR ('F' :: (ip ++ '.' :: fp)) true rest =
              ip ++ '.' :: (fp ++ replFR ('F' :: (ip ++ '.' :: fp)) true rest) by
            simp [List.append_assoc]]
          exact h3
        show replFR ('F' :: (ip ++ '.' :: fp)) false
            ('F' :: ((ip ++ '.' :: fp) ++ replFR ('F' :: (ip ++ '.' :: fp)) true rest)) =
          'F' :: ((ip ++ '.' :: fp) ++ replFR ('F' :: (ip ++ '.' :: fp)) true rest)
        rw [replFR_cons_match hmR]
        rw [ih rest true hlen]
        rfl

/-- Claim C9 amended: the feed-rate substitution is idempotent for every
override whose rendered value has the form digits, period, digits (as the
counterexample forces: for a bare-digit rendering the line F1.5.7 defeats
idempotence). -/
theorem c9_feedrate_idempotent_frac (ip fp : List Char) (line : String)
    (hip : ip ≠ []) (hfp : fp ≠ [])
    (hipd : ∀ c ∈ ip, digitChar c = true) (hfpd : ∀ c ∈ fp, digitChar c = true) :
    processFeedRate (some (String.mk (ip ++ '.' :: fp)))
        (processFeedRate (some (String.mk (ip ++ '.' :: fp))) line) =
      processFeedRate (some (String.mk (ip ++ '.' :: fp))) line :=
  congrArg String.mk
    (replFR_idem hip hfp hipd hfpd line.toList.length line.toList false le_rfl)

/-- Witness for the amended claim C9 at the override rendered 2.5 and a
concrete line. -/
theorem c9_witness :
    processFeedRate (some (String.mk (['2'] ++ '.' :: ['5'])))
        (processFeedRate (some (String.mk (['2'] ++ '.' :: ['5']))) "G1 X5 F350") =
      processFeedRate (some (String.mk (['2'] ++ '.' :: ['5']))) "G1 X5 F350" :=
  c9_feedrate_idempotent_frac ['2'] ['5'] "G1 X5 F350" (by decide) (by decide) (by decide)
    (by decide)

end GcodePost
